import Mathlib

/-!
Verification of `compileengine/engine.py`: a two-phase script compile engine.

Phase 1 (`_find_branches`) repeatedly executes a caller routine against a
worklist of recorded decision sequences, using the `NewBranch` exception as an
internal escape to discover new branch points.  Phase 2 (`compile`) replays
each discovered path, emitting bytes into an arena of `EngineBlock`s linked by
jump placeholders, memoized on the current `path_stack` of decision tokens.

The embedding below models:
  * bytes as `Nat` (each `< 256` for engine-produced content),
  * the `BytesIO` buffer as a `List Nat` (the code only ever appends at the
    current end, or resets via `truncate(0); seek(0)`, so `tell()` is always
    the buffer length),
  * Python object identity of blocks by indices ("block ids") into the arena
    `Engine.blocks`, and identity of subroutine objects by a `Nat` id,
  * Python dicts (`EngineBlock.jumps`, `Engine.state_blocks`) as association
    lists where assignment prepends and lookup takes the first match (dict
    overwrite semantics),
  * the caller routine (a Python function taking the engine) as a deep
    embedding `Routine`; `Routine.ifCompiling` models a routine that reads
    `engine.state`, which a (contract-violating) Python routine can do,
  * exceptions (`NewBranch`, `NotImplementedError`) as an `Except` result
    carrying the engine state mutated so far,
  * the unbounded `while` worklist loop of `_find_branches` with an explicit
    fuel parameter (`none` = fuel exhausted, which a sufficiently large fuel
    avoids; all theorems below supply a sufficient fuel).

Stacks (`Engine.stack`, `Engine.path_stack`) are stored with the most recently
appended element at the head; `tuple(self.path_stack)` dictionary keys are
therefore reversed relative to Python, a bijective renaming of keys that
preserves all lookup behaviour.
-/

/-- Engine.pointer_size: the class constant, 4. -/
def pointer_size : Nat := 4

/-- Engine.STATE_IDLE -/
def STATE_IDLE : Nat := 0
/-- Engine.STATE_BUILDING_BRANCHES -/
def STATE_BUILDING_BRANCHES : Nat := 1
/-- Engine.STATE_COMPILING -/
def STATE_COMPILING : Nat := 2

/-- First-match association-list lookup, modelling Python dict lookup where
assignment prepends a new binding. -/
def assocLookup {α β : Type} [DecidableEq α] : List (α × β) → α → Option β
  | [], _ => none
  | (k, v) :: rest, key => if k = key then some v else assocLookup rest key

/-- EngineBlock: a compiled block. `buff` is the content (`None` in Python
until first stored; modelled as `[]`, which is always overwritten before any
read), `jumps` maps a byte offset to the id of the linked block.  The `offset`
field (filled in by an external linker) plays no role in any claim and is
omitted. -/
structure EngineBlock where
  buff : List Nat
  jumps : List (Nat × Nat)
deriving DecidableEq, Repr

/-- Tokens pushed on `path_stack`: `Engine.branch` pushes the decision value
(a Python bool), `Engine.call` pushes the called function object (identity
modelled by a `Nat` id). -/
inductive Token where
  | dec (value : Bool)
  | sub (id : Nat)
deriving DecidableEq, Repr

/-- One entry of `Engine.paths`.  `ds` is the tuple of boolean decisions;
`dead` records that the Python tuple was terminated with the `NewBranch`
marker (`self.paths[self.path_id] = self.current_path+(NewBranch,)`), which
the filter at the end of `_find_branches` removes. -/
structure PathEntry where
  ds : List Bool
  dead : Bool
deriving DecidableEq, Repr

/-- Deep embedding of the caller routine executed as `func(self)`.
Each constructor's trailing `Routine` is the continuation of the Python
program text after the engine call returns.  `branch` has two continuations
because the routine branches on the returned bool.  `call` carries the
identity (`sid`) and body of the called subroutine.  `ifCompiling` models a
routine inspecting `engine.state == engine.STATE_COMPILING`. -/
inductive Routine where
  | ret
  | unknown (value : Int) (size : Nat) (k : Routine)
  | branch (condition : Nat) (kTrue kFalse : Routine)
  | call (sid : Nat) (body : Routine) (k : Routine)
  | loop (condition : Nat) (k : Routine)
  | ifCompiling (kComp kElse : Routine)
deriving DecidableEq, Repr

/-- Exceptions escaping a routine execution: the internal `NewBranch` escape
raised by `Engine.branch`, and the `NotImplementedError` raised by
`Engine.loop`. -/
inductive RunErr where
  | newBranch
  | loopErr
deriving DecidableEq, Repr

/-- The engine state: every mutable attribute of the Python `Engine` object
that the compile pipeline touches (the `vars`/`funcs` registries are
independent and modelled separately below). -/
structure Engine where
  state : Nat
  buf : List Nat
  stack : List Nat
  currentBlock : Nat
  stateBlocks : List (List Token × Nat)
  pathStack : List Token
  blocks : List EngineBlock
  paths : List PathEntry
  loops : List Nat
  currentPath : List Bool
  branchId : Nat
  pathId : Nat
deriving DecidableEq, Repr

/-- Engine.__init__ (buffer empty, no blocks, idle).  `current_block` is
`None` in Python; it is set before any use, so the placeholder id `0` is never
observed. -/
def Engine.init : Engine :=
  { state := STATE_IDLE, buf := [], stack := [], currentBlock := 0,
    stateBlocks := [], pathStack := [], blocks := [], paths := [],
    loops := [], currentPath := [], branchId := 0, pathId := 0 }

/-- One byte of `Engine.write_value`: `chr((value >> (i*8)) & 0xFF)`.
Python `>>` on an `int` is a floor shift and `& 0xFF` on a (possibly
negative) `int` is reduction modulo 256, i.e. Euclidean div/mod by a positive
power of two. -/
def write_value_byte (value : Int) (i : Nat) : Nat :=
  ((value.ediv (2 ^ (i * 8))).emod 256).toNat

/-- The buffer built by the loop in `Engine.write_value`:
`for i in range(size): buff += chr((value >> (i*8)) & 0xFF)`. -/
def write_value_buff (value : Int) (size : Nat) : List Nat :=
  (List.range size).map fun i => write_value_byte value i

/-- Engine.write_value: append a fixed length little-endian value to the
buffer. -/
def Engine.write_value (s : Engine) (value : Int) (size : Nat) : Engine :=
  { s with buf := s.buf ++ write_value_buff value size }

/-- Update the arena block with id `i` (no-op on an out-of-range id, which
never occurs: every id handed out indexes the arena). -/
def updateBlock (blocks : List EngineBlock) (i : Nat)
    (f : EngineBlock → EngineBlock) : List EngineBlock :=
  match blocks.get? i with
  | none => blocks
  | some b => blocks.set i (f b)

/-- Store `b` as the content of block `bid` (`block.buff = self.getvalue()`). -/
def Engine.setBlockBuff (s : Engine) (bid : Nat) (b : List Nat) : Engine :=
  let blocks := updateBlock s.blocks bid (fun blk => { blk with buff := b })
  { s with blocks := blocks }

/-- Record a jump edge (`block.jumps[ofs] = target`, Python dict assignment:
prepend; `assocLookup` takes the first match). -/
def Engine.setJump (s : Engine) (bid ofs target : Nat) : Engine :=
  let blocks := updateBlock s.blocks bid
    (fun blk => { blk with jumps := (ofs, target) :: blk.jumps })
  { s with blocks := blocks }

/-- Engine.push: store the current buffer into the current block, clear the
buffer, push the current block and the state token, then make the block
memoized under the new `path_stack` current (creating and registering a fresh
block on a `KeyError`).  The Python `state=None` default (a fresh `object()`)
is never used by this code base: `branch` passes the decision and `call`
passes the function. -/
def Engine.push (s : Engine) (state : Token) : Engine :=
  let block := s.currentBlock
  let s := s.setBlockBuff block s.buf
  let s := { s with buf := [], stack := block :: s.stack,
                    pathStack := state :: s.pathStack }
  match assocLookup s.stateBlocks s.pathStack with
  | some bid => { s with currentBlock := bid }
  | none =>
      let bid := s.blocks.length
      { s with currentBlock := bid,
               blocks := s.blocks ++ [⟨[], []⟩],
               stateBlocks := (s.pathStack, bid) :: s.stateBlocks }

/-- Engine.pop: store the buffer into the current block, pop the block stack
and path stack, and restore the popped block's content as the buffer.  Python
`list.pop()` on an empty stack raises `IndexError`; every call site guards the
stack (`while self.stack` in `compile`) or has pushed first (`call`), so the
empty case is unreachable and modelled as the identity. -/
def Engine.pop (s : Engine) : Engine :=
  match s.stack with
  | [] => s
  | block :: rest =>
      let s := s.setBlockBuff s.currentBlock s.buf
      { s with stack := rest, pathStack := s.pathStack.tail,
               currentBlock := block,
               buf := (s.blocks.getD block ⟨[], []⟩).buff }

/-- Fuel-indexed driver for `while self.stack: self.pop()`; the stack length
is an exact bound on the number of iterations. -/
def popAllGo : Nat → Engine → Engine
  | 0, s => s
  | n + 1, s => if s.stack.isEmpty then s else popAllGo n s.pop

/-- The `while self.stack: self.pop()` loop at the end of each compiled path. -/
def Engine.popAll (s : Engine) : Engine :=
  popAllGo s.stack.length s

/-- Engine.write_branch: write a `pointer_size` placeholder and return the
offset it starts at (`tell()` before the write).  The `branch_state` and
`condition` arguments are accepted and ignored, as in the source. -/
def Engine.write_branch (s : Engine) (_branch_state : Bool) (_condition : Nat) :
    Nat × Engine :=
  (s.buf.length, s.write_value 0 pointer_size)

/-- Engine.write_jump: write a `pointer_size` placeholder and return
`tell() - pointer_size`. -/
def Engine.write_jump (s : Engine) : Nat × Engine :=
  let s := s.write_value 0 pointer_size
  (s.buf.length - pointer_size, s)

/-- Engine.branch: consume the next recorded decision.  Past the end of the
recorded path (`IndexError`), enqueue the two continuations and raise
`NewBranch` — in either phase.  While compiling, additionally write the two
adjacent placeholder slots, push the decision token, and link only the slot of
the taken decision to the (possibly memoized) nested block. -/
def Engine.branch (s : Engine) (condition : Nat) :
    Except (RunErr × Engine) (Bool × Engine) :=
  match s.currentPath.get? s.branchId with
  | none =>
      .error (.newBranch,
        { s with paths := s.paths ++
            [⟨s.currentPath ++ [true], false⟩, ⟨s.currentPath ++ [false], false⟩] })
  | some value =>
      let s := { s with branchId := s.branchId + 1 }
      if s.state == STATE_COMPILING then
        let old_block := s.currentBlock
        let (true_ofs, s) := s.write_branch true condition
        let (false_ofs, s) := s.write_branch false condition
        let s := s.push (.dec value)
        let s := if value then s.setJump old_block true_ofs s.currentBlock else s
        let s := if value then s else s.setJump old_block false_ofs s.currentBlock
        .ok (value, s)
      else
        .ok (value, s)

/-- The compiling-phase prologue of Engine.call: write a jump placeholder,
push the subroutine-identity token, and wire the placeholder to the nested
block. -/
def Engine.callBegin (s : Engine) (sid : Nat) : Engine :=
  let block := s.currentBlock
  let (ofs, s) := s.write_jump
  let s := s.push (.sub sid)
  s.setJump block ofs s.currentBlock

/-- Engine.write_end: a hook that writes nothing in this engine. -/
def Engine.write_end (s : Engine) : Engine := s

/-- Execute a routine against the engine, as `func(self)` does: each engine
call either updates the state or raises (`Except.error` carries the engine
state as already mutated when the exception was raised).
`unknown` writes its value only while compiling; `call` runs the prologue,
executes the body, then `write_end` + `pop`, with the block bookkeeping only
while compiling; `loop` raises `NotImplementedError` unconditionally. -/
def execRoutine : Routine → Engine → Except (RunErr × Engine) Engine
  | .ret, s => .ok s
  | .unknown value size k, s =>
      let s := if s.state == STATE_COMPILING then s.write_value value size else s
      execRoutine k s
  | .branch condition kTrue kFalse, s =>
      match s.branch condition with
      | .error es => .error es
      | .ok (value, s) =>
          if value then execRoutine kTrue s else execRoutine kFalse s
  | .call sid body k, s =>
      let s := if s.state == STATE_COMPILING then s.callBegin sid else s
      match execRoutine body s with
      | .error es => .error es
      | .ok s =>
          let s := if s.state == STATE_COMPILING then s.write_end.pop else s
          execRoutine k s
  | .loop _ _, s => .error (.loopErr, s)
  | .ifCompiling kComp kElse, s =>
      if s.state == STATE_COMPILING then execRoutine kComp s
      else execRoutine kElse s

/-- Python tuple comparison `<` on decision tuples (False < True, a proper
prefix is smaller). -/
def pathLt : List Bool → List Bool → Bool
  | [], [] => false
  | [], _ :: _ => true
  | _ :: _, [] => false
  | a :: as, b :: bs => (!a && b) || (a == b && pathLt as bs)

/-- Insert an entry into a descending-sorted list (used to model
`self.paths.sort(reverse=True)`; all sorted entries have distinct decision
tuples, so the descending order is unique). -/
def insertEntry (e : PathEntry) : List PathEntry → List PathEntry
  | [] => [e]
  | x :: xs => if pathLt x.ds e.ds then e :: x :: xs else x :: insertEntry e xs

/-- Sort path entries into decreasing tuple order,
modelling `self.paths.sort(reverse=True)`. -/
def sortEntries : List PathEntry → List PathEntry
  | [] => []
  | x :: xs => insertEntry x (sortEntries xs)

/-- The `while self.path_id < len(self.paths)` worklist loop of
`_find_branches`, with explicit fuel.  Each iteration runs the routine on the
path at `path_id`; a `NewBranch` escape (whose engine state already holds the
two enqueued continuations) marks the processed entry dead; any other
exception propagates. -/
def findBranchesLoop : Nat → Routine → Engine →
    Option (Except (RunErr × Engine) Engine)
  | 0, _, _ => none
  | fuel + 1, r, s =>
    if h : s.pathId < s.paths.length then
      let s := { s with currentPath := (s.paths.get ⟨s.pathId, h⟩).ds,
                        branchId := 0 }
      match execRoutine r s with
      | .ok s => findBranchesLoop fuel r { s with pathId := s.pathId + 1 }
      | .error (.newBranch, s) =>
          findBranchesLoop fuel r
            { s with paths := s.paths.set s.pathId ⟨s.currentPath, true⟩,
                     pathId := s.pathId + 1 }
      | .error es => some (.error es)
    else
      some (.ok s)

/-- Engine._find_branches: initialise the worklist with the empty path, run
the loop, then drop the `NewBranch`-terminated entries and sort the feasible
paths in reverse order. -/
def Engine.find_branches (s : Engine) (r : Routine) (fuel : Nat) :
    Option (Except (RunErr × Engine) Engine) :=
  let s := { s with paths := [⟨[], false⟩], loops := [], pathId := 0 }
  match findBranchesLoop fuel r s with
  | none => none
  | some (.error es) => some (.error es)
  | some (.ok s) =>
      some (.ok { s with
        paths := sortEntries (s.paths.filter fun path => !path.dead) })

/-- The `for path in self.paths` body of the compile phase: reset the buffer
and counters, run the routine, store the root-side buffer and close every
still-open block.  Appending to `self.paths` while iterating only happens
together with an immediately raised exception, so iterating the snapshot is
faithful. -/
def Engine.compileLoop (r : Routine) :
    List PathEntry → Engine → Except (RunErr × Engine) Engine
  | [], s => .ok s
  | path :: rest, s =>
      let s := { s with buf := [], branchId := 0, currentPath := path.ds }
      match execRoutine r s with
      | .error es => .error es
      | .ok s =>
          let s := s.write_end
          let s := s.setBlockBuff s.currentBlock s.buf
          let s := s.popAll
          Engine.compileLoop r rest s

/-- Engine.compile: discovery phase, then the compile phase over every
discovered path, producing the root block (returned as its arena id).  The
`try/finally` restores `STATE_IDLE` on every exit, success or exception; the
engine state at exit is returned alongside the outcome.  `none` is the fuel
artifact of the discovery worklist loop. -/
def Engine.compile (s0 : Engine) (r : Routine) (fuel : Nat) :
    Option (Except RunErr Nat × Engine) :=
  let s := { s0 with state := STATE_BUILDING_BRANCHES }
  match s.find_branches r fuel with
  | none => none
  | some (.error (e, s)) => some (.error e, { s with state := STATE_IDLE })
  | some (.ok s) =>
      let s := { s with state := STATE_COMPILING, stateBlocks := [] }
      let script_block := s.blocks.length
      let s := { s with currentBlock := script_block,
                        blocks := s.blocks ++ [⟨[], []⟩] }
      match Engine.compileLoop r s.paths s with
      | .error (e, s) => some (.error e, { s with state := STATE_IDLE })
      | .ok s => some (.ok script_block, { s with state := STATE_IDLE })

/-- Positions covered by a placeholder slot of the jump map: `pos` lies in
some `[ofs, ofs + pointer_size)` with `ofs` a recorded jump offset. -/
def inRegion (jumps : List (Nat × Nat)) (pos : Nat) : Bool :=
  jumps.any fun p => p.1 ≤ pos && pos < p.1 + pointer_size

/-- One iteration bound of the `while idx < len(self.buff)` loop of
`EngineBlock.__eq__`: each iteration advances `idx` by at least one, so
`len(self.buff) - idx` bounds the remaining iterations; once `gas` is spent,
`idx` has necessarily passed the end and the loop would return `True`.  At a
recorded jump offset of the left block, require the right block to record a
jump there too and the linked blocks to satisfy `cmp`, then skip the
`pointer_size` slot; elsewhere compare the bytes and advance by one. -/
def eqWalkGas (cmp : Nat → Nat → Bool) (sbuff : List Nat)
    (sjumps : List (Nat × Nat)) (obuff : List Nat)
    (ojumps : List (Nat × Nat)) : Nat → Nat → Bool
  | 0, _ => true
  | gas + 1, idx =>
    if idx < sbuff.length then
      match assocLookup sjumps idx with
      | some t1 =>
          match assocLookup ojumps idx with
          | none => false
          | some t2 =>
              cmp t1 t2 &&
              eqWalkGas cmp sbuff sjumps obuff ojumps gas (idx + pointer_size)
      | none =>
          (sbuff.getD idx 0 == obuff.getD idx 0) &&
          eqWalkGas cmp sbuff sjumps obuff ojumps gas (idx + 1)
    else
      true

/-- The `while idx < len(self.buff)` loop of `EngineBlock.__eq__`, started at
`idx` (with its exact iteration bound as gas). -/
def eqWalk (cmp : Nat → Nat → Bool) (sbuff : List Nat)
    (sjumps : List (Nat × Nat)) (obuff : List Nat) (ojumps : List (Nat × Nat))
    (idx : Nat) : Bool :=
  eqWalkGas cmp sbuff sjumps obuff ojumps (sbuff.length - idx) idx

/-- EngineBlock.__eq__ on arena ids: the `self is other` identity shortcut is
id equality; otherwise compare lengths and run the walk, recursing on linked
blocks.  The recursion is fuel-indexed (at exhausted fuel only the identity
shortcut remains); engine-built block graphs are DAGs, so any fuel at least
the arena size is exact. -/
def blockEq (blocks : List EngineBlock) : Nat → Nat → Nat → Bool
  | 0, i, j => i == j
  | fuel + 1, i, j =>
      if i == j then true
      else
        match blocks.get? i, blocks.get? j with
        | some s, some o =>
            s.buff.length == o.buff.length &&
            eqWalk (fun a b => blockEq blocks fuel a b)
              s.buff s.jumps o.buff o.jumps 0
        | _, _ => false

/-- Modelled from the spec (§4.2 block equality, for comparison against the
code's `EngineBlock.__eq__`): two blocks are equal iff their content lengths
match, every byte outside the placeholder regions recorded in the left jump
map matches position-by-position, and at every recorded jump offset (within
the content) the right block links a block recursively equal to the left's.
Identity and fuel exhaustion are treated exactly as in `blockEq`. -/
def specBlockEq (blocks : List EngineBlock) : Nat → Nat → Nat → Bool
  | 0, i, j => i == j
  | fuel + 1, i, j =>
      if i == j then true
      else
        match blocks.get? i, blocks.get? j with
        | some s, some o =>
            s.buff.length == o.buff.length &&
            ((List.range s.buff.length).all fun pos =>
              inRegion s.jumps pos ||
              (s.buff.getD pos 0 == o.buff.getD pos 0)) &&
            (s.jumps.all fun p =>
              decide (s.buff.length ≤ p.1) ||
              match assocLookup o.jumps p.1 with
              | none => false
              | some t2 => specBlockEq blocks fuel p.2 t2)
        | _, _ => false

/-- Well-formed jump map for a content of length `len`: offsets are distinct,
every slot lies inside the content, and distinct slots do not overlap.  Every
jump map the engine builds has this shape: each slot is `pointer_size` bytes
written at the then-current end of the buffer. -/
def WFjumps (len : Nat) (jumps : List (Nat × Nat)) : Prop :=
  (jumps.map Prod.fst).Nodup ∧
  (∀ p ∈ jumps, p.1 + pointer_size ≤ len) ∧
  (∀ p ∈ jumps, ∀ q ∈ jumps, p.1 ≠ q.1 →
    p.1 + pointer_size ≤ q.1 ∨ q.1 + pointer_size ≤ p.1)

/-- A block whose jump map is well-formed for its content. -/
def WFblock (b : EngineBlock) : Prop := WFjumps b.buff.length b.jumps

/-- An arena all of whose blocks are well-formed. -/
def WFarena (blocks : List EngineBlock) : Prop := ∀ b ∈ blocks, WFblock b

/-- Modelled from the spec: the `Variable` class (`compileengine.variable`)
is imported by the source but not part of it; per §4.4 an entry is a named
handle bound to its engine whose `value` attribute is readable and writable.
`value` is `none` until first assigned.  Values are modelled as integers. -/
structure PyVariable where
  name : String
  value : Option Int
deriving DecidableEq, Repr

/-- VariableCollection: the lazy name → handle registry (`_cache`). -/
structure VariableCollection where
  cache : List (String × PyVariable)
deriving DecidableEq, Repr

/-- VariableCollection.__getattr__: return the cached handle, creating and
caching a fresh one (`_create`) on a `KeyError`. -/
def VariableCollection.getattr (c : VariableCollection) (name : String) :
    PyVariable × VariableCollection :=
  match assocLookup c.cache name with
  | some var => (var, c)
  | none =>
      let var : PyVariable := ⟨name, none⟩
      (var, ⟨(name, var) :: c.cache⟩)

/-- VariableCollection.__setattr__: fetch (creating if needed) the handle for
`name` and assign its `value` attribute; the cache entry aliases the mutated
object. -/
def VariableCollection.setattr (c : VariableCollection) (name : String)
    (value : Int) : VariableCollection :=
  let (var, c) := c.getattr name
  ⟨c.cache.map fun p =>
    if p.1 = name then (p.1, { var with value := some value }) else p⟩

/-- The TypeError raised by `FunctionCollection.__setattr__`. -/
inductive RegistryErr where
  | cannotSetFunction
deriving DecidableEq, Repr

/-- FunctionCollection: same lazy registry, but function entries are
read-only. -/
structure FunctionCollection where
  cache : List (String × PyVariable)
deriving DecidableEq, Repr

/-- FunctionCollection.__setattr__: `raise TypeError('Cannot set a function')`
for every name and value. -/
def FunctionCollection.setattr (_c : FunctionCollection) (_name : String)
    (_value : Int) : Except RegistryErr FunctionCollection :=
  .error .cannotSetFunction

/-- Routines that request exactly `n` branch decisions on every execution,
whatever decisions are fed back (claim C2's hypothesis on the routine). -/
inductive Uniform : Routine → Nat → Prop where
  | ret : Uniform .ret 0
  | unknown {v : Int} {sz : Nat} {k : Routine} {n : Nat} :
      Uniform k n → Uniform (.unknown v sz k) n
  | branch {c : Nat} {kT kF : Routine} {n : Nat} :
      Uniform kT n → Uniform kF n → Uniform (.branch c kT kF) (n + 1)
  | call {sid : Nat} {body k : Routine} {m n : Nat} :
      Uniform body m → Uniform k n → Uniform (.call sid body k) (m + n)
  | ifCompiling {kC kE : Routine} {n : Nat} :
      Uniform kC n → Uniform kE n → Uniform (.ifCompiling kC kE) n

/-- Worklist weight of one pending path of length `l` when every execution
requests `k` decisions: the number of iterations the discovery loop spends on
it and its descendants. -/
def pathWeight (k l : Nat) : Nat := if l ≤ k then 2 ^ (k + 1 - l) - 1 else 1

/-- Number of terminal paths one pending path of length `l` expands into. -/
def pathLeaves (k l : Nat) : Nat := if l ≤ k then 2 ^ (k - l) else 1

/-- Total worklist weight of a list of pending entries. -/
def weightSum (k : Nat) (l : List PathEntry) : Nat :=
  (l.map fun e => pathWeight k e.ds.length).sum

/-- Total number of terminal paths a list of pending entries expands into. -/
def leavesSum (k : Nat) (l : List PathEntry) : Nat :=
  (l.map fun e => pathLeaves k e.ds.length).sum

/-- Number of entries that survive the `NewBranch` filter. -/
def undeadLen (l : List PathEntry) : Nat :=
  (l.filter fun e => !e.dead).length

/-- Observation of the discovery loop at exit, before the filter/sort step of
`_find_branches`: the feasible (non-`NewBranch`-terminated) entries of
`self.paths`, in the order the worklist produced them. -/
def discoveredRaw (r : Routine) (fuel : Nat) : Option (List (List Bool)) :=
  let s0 : Engine :=
    { Engine.init with state := STATE_BUILDING_BRANCHES,
                       paths := [⟨[], false⟩], loops := [], pathId := 0 }
  match findBranchesLoop fuel r s0 with
  | some (.ok s) => some ((s.paths.filter fun e => !e.dead).map PathEntry.ds)
  | _ => none

/-- The engine fields a discovery-phase execution can never touch (it writes
no bytes and allocates no blocks): everything except `paths`, `currentPath`,
`branchId` and `pathId`. -/
def sameBuildCore (s s' : Engine) : Prop :=
  s'.state = s.state ∧ s'.blocks = s.blocks ∧ s'.buf = s.buf ∧
  s'.stack = s.stack ∧ s'.pathStack = s.pathStack ∧
  s'.stateBlocks = s.stateBlocks ∧ s'.currentBlock = s.currentBlock

/-- Invariant shape for the discovery loop result: whatever the outcome, the
result engine agrees with `base` on all `sameBuildCore` fields. -/
def loopCoreInv (base : Engine)
    (res : Option (Except (RunErr × Engine) Engine)) : Prop :=
  match res with
  | some (.ok s') => sameBuildCore base s'
  | some (.error (_, s')) => sameBuildCore base s'
  | none => True

/-- Any exception the discovery loop lets escape is of the given kind (used
to state that the `NewBranch` escape is always caught there). -/
def errIsLoopErr (res : Option (Except (RunErr × Engine) Engine)) : Prop :=
  match res with
  | some (.error (e, _)) => e = RunErr.loopErr
  | _ => True

/-- When the discovery loop exits with an exception, the engine has the given
block arena and buffer (used to state that a discovery-phase failure happens
before any bytes are written to any block or buffer). -/
def discErrKeeps (base : Engine)
    (res : Option (Except (RunErr × Engine) Engine)) : Prop :=
  match res with
  | some (.error (_, s')) => s'.blocks = base.blocks ∧ s'.buf = base.buf
  | _ => True

/-- Claim C1's routine: one branch, byte 0x01 on true, byte 0x02 on false. -/
def r1 : Routine := .branch 0 (.unknown 1 1 .ret) (.unknown 2 1 .ret)

/-- Claim C3's positive routine: the same subroutine object (id 5) called
from two sequential call sites in the same decision context. -/
def rShared : Routine :=
  .call 5 (.unknown 7 1 .ret) (.call 5 (.unknown 7 1 .ret) .ret)

/-- Claim C3's counterexample routine: the same subroutine object (id 5)
called from one call site in each arm of a branch. -/
def rCtx : Routine :=
  .branch 0 (.call 5 (.unknown 7 1 .ret) .ret)
            (.call 5 (.unknown 7 1 .ret) .ret)

/-- Claim C5's diverging routine: behaves differently between the discovery
and compile phases (no branches while discovering, one branch while
compiling), violating the determinism contract. -/
def rDiv : Routine := .ifCompiling (.branch 0 .ret .ret) .ret

/-- Claim C6's routine calling `loop` immediately. -/
def rL : Routine := .loop 0 .ret

/-- Claim C6's routine calling `loop` only after a branch decision. -/
def rBL : Routine := .branch 0 (.loop 0 .ret) .ret

/-- Claim C2's witness routine: a single branch (k = 1). -/
def rEx : Routine := .branch 0 .ret .ret

/-- Arena for claim C4's concrete sensitivity/insensitivity checks: block 0
jumps to block 1 ([7]); block 3 is byte-identical to block 0 with the same
link; block 4 is byte-identical but links block 2 ([8]) instead; block 5 has
different bytes inside its placeholder slot but the same link as block 0. -/
def blocksSens : List EngineBlock :=
  [⟨[0, 0, 0, 0], [(0, 1)]⟩, ⟨[7], []⟩, ⟨[8], []⟩,
   ⟨[0, 0, 0, 0], [(0, 1)]⟩, ⟨[0, 0, 0, 0], [(0, 2)]⟩, ⟨[9, 9, 9, 9], [(0, 1)]⟩]

/-! ### Supporting lemmas -/

lemma write_value_buff_length (value : Int) (size : Nat) :
    (write_value_buff value size).length = size := by
  simp [write_value_buff]

lemma write_value_buff_getD (value : Int) (size i : Nat) :
    (write_value_buff value size).getD i 0 =
      if i < size then ((value.ediv (2 ^ (8 * i))).emod 256).toNat else 0 := by
  by_cases h : i < size
  · simp [write_value_buff, List.getD_eq_getElem?_getD, List.getElem?_map,
      List.getElem?_range h, write_value_byte, h, Nat.mul_comm]
  · have hlen : (write_value_buff value size).length ≤ i := by
      rw [write_value_buff_length]; omega
    simp [List.getD_eq_getElem?_getD, List.getElem?_eq_none hlen, h]

lemma write_value_byte_emod (value : Int) (size i : Nat) (h : i < size) :
    write_value_byte (value.emod (2 ^ (8 * size))) i = write_value_byte value i := by
  unfold write_value_byte
  congr 1
  have hd0 : ((2 : Int) ^ (i * 8)) ≠ 0 := by positivity
  have hM : (2 : Int) ^ (8 * size) = 2 ^ (i * 8) * 2 ^ (8 * size - i * 8) := by
    rw [← pow_add]; congr 1; omega
  have hE : (2 : Int) ^ (8 * size - i * 8) = 256 * 2 ^ (8 * size - i * 8 - 8) := by
    have h256 : (256 : Int) = 2 ^ 8 := by norm_num
    rw [h256, ← pow_add]; congr 1; omega
  have key : ∀ M e f q : Int, M = 2 ^ (i * 8) * e → e = 256 * f →
      ((value - M * q).ediv (2 ^ (i * 8))).emod 256 =
      (value.ediv (2 ^ (i * 8))).emod 256 := by
    intro M e f q hMe hef
    subst hMe hef
    show ((value - 2 ^ (i * 8) * (256 * f) * q) / 2 ^ (i * 8)) % 256
        = (value / 2 ^ (i * 8)) % 256
    have h1 : value - 2 ^ (i * 8) * (256 * f) * q
        = value + (-(256 * f * q)) * 2 ^ (i * 8) := by ring
    rw [h1, Int.add_mul_ediv_right _ _ hd0]
    have h2 : value / 2 ^ (i * 8) + -(256 * f * q)
        = value / 2 ^ (i * 8) + 256 * (-(f * q)) := by ring
    rw [h2, Int.add_mul_emod_self_left]
  have hmod : value.emod (2 ^ (8 * size))
      = value - 2 ^ (8 * size) * (value.ediv (2 ^ (8 * size))) := Int.emod_def _ _
  rw [hmod]
  exact key (2 ^ (8 * size)) (2 ^ (8 * size - i * 8)) (2 ^ (8 * size - i * 8 - 8))
    (value.ediv (2 ^ (8 * size))) hM hE

lemma assocLookup_map_set {l : List (String × PyVariable)} {name : String}
    (w : PyVariable) (h : (assocLookup l name).isSome) :
    assocLookup (l.map fun p => if p.1 = name then (p.1, w) else p) name
      = some w := by
  induction l with
  | nil => simp [assocLookup] at h
  | cons hd tl ih =>
      obtain ⟨k, v⟩ := hd
      simp only [List.map_cons]
      by_cases hk : k = name
      · subst hk
        have hhd : (if (k, v).1 = k then ((k, v).1, w) else (k, v)) = (k, w) := by
          simp
        rw [hhd]
        simp [assocLookup]
      · have hhd : (if (k, v).1 = name then ((k, v).1, w) else (k, v)) = (k, v) := by
          simp [hk]
        rw [hhd]
        simp only [assocLookup, hk, if_false] at h ⊢
        exact ih h

/-! ### Claim theorems -/

/-- C10: for every integer `value` and every `size ≥ 0`, `write_value`
appends exactly `size` bytes to the buffer, the i-th appended byte (0-based)
being `(value >> (8*i)) mod 256` — least-significant byte first — so a value
wider than `size` bytes is truncated modulo `2^(8*size)`. -/
theorem c10_write_value (s : Engine) (value : Int) (size : Nat) :
    (s.write_value value size).buf = s.buf ++ write_value_buff value size ∧
    (write_value_buff value size).length = size ∧
    (∀ i : Nat, (write_value_buff value size).getD i 0 =
        if i < size then ((value.ediv (2 ^ (8 * i))).emod 256).toNat else 0) ∧
    write_value_buff (value.emod (2 ^ (8 * size))) size =
      write_value_buff value size := by
  refine ⟨rfl, write_value_buff_length value size, write_value_buff_getD value size, ?_⟩
  unfold write_value_buff
  refine List.map_congr_left ?_
  intro i hi
  exact write_value_byte_emod value size i (List.mem_range.mp hi)

/-- C7: the decision returned by `Engine.branch` depends only on how many
decisions have already been consumed on the current execution (the engine
state), never on the `condition` argument: identical states with different
conditions give identical results, and the returned decision is exactly the
recorded decision at position `branch_id` (with the escape raised exactly
when the position is past the recorded path). -/
theorem c7_branch_ignores_condition :
    (∀ (s : Engine) (c₁ c₂ : Nat), s.branch c₁ = s.branch c₂) ∧
    (∀ (s : Engine) (c : Nat),
        ((s.branch c).toOption.map Prod.fst) = s.currentPath.get? s.branchId) := by
  constructor
  · intro s c₁ c₂; rfl
  · intro s c
    unfold Engine.branch
    cases h : s.currentPath.get? s.branchId with
    | none => rfl
    | some v =>
        simp only []
        split <;> rfl

/-- C8: every `compile` call leaves the engine state `STATE_IDLE` on exit,
both when it returns the root block and when it exits with an error (the
`finally` clause). -/
theorem c8_compile_restores_idle :
    ∀ (s : Engine) (r : Routine) (fuel : Nat),
      match s.compile r fuel with
      | some (_, eng) => eng.state = STATE_IDLE
      | none => True := by
  intro s r fuel
  unfold Engine.compile
  dsimp only
  split
  · rename_i fst eng heq
    split at heq
    · exact Option.noConfusion heq
    · cases heq; rfl
    · split at heq
      · cases heq; rfl
      · cases heq; rfl
  · trivial

/-- C9: assigning to a function-kind registry entry fails with the
immutable-binding TypeError for every name and value; assigning to a
variable-kind entry succeeds for every name and value, and a later read of
the same name returns the assigned value. -/
theorem c9_registry :
    (∀ (c : FunctionCollection) (name : String) (value : Int),
        c.setattr name value = .error .cannotSetFunction) ∧
    (∀ (c : VariableCollection) (name : String) (value : Int),
        ((c.setattr name value).getattr name).1.value = some value) := by
  constructor
  · intro c name value; rfl
  · intro c name value
    unfold VariableCollection.setattr VariableCollection.getattr
    cases h : assocLookup c.cache name with
    | none =>
        simp only [h]
        have : (assocLookup ((name, (⟨name, none⟩ : PyVariable)) :: c.cache)
            name).isSome := by simp [assocLookup]
        rw [assocLookup_map_set _ this]
    | some var =>
        simp only [h]
        have : (assocLookup c.cache name).isSome := by simp [h]
        rw [assocLookup_map_set _ this]

lemma sameBuildCore_refl (s : Engine) : sameBuildCore s s :=
  ⟨rfl, rfl, rfl, rfl, rfl, rfl, rfl⟩

lemma sameBuildCore_trans {a b c : Engine} (h1 : sameBuildCore a b)
    (h2 : sameBuildCore b c) : sameBuildCore a c := by
  obtain ⟨x1, x2, x3, x4, x5, x6, x7⟩ := h1
  obtain ⟨y1, y2, y3, y4, y5, y6, y7⟩ := h2
  exact ⟨y1.trans x1, y2.trans x2, y3.trans x3, y4.trans x4,
    y5.trans x5, y6.trans x6, y7.trans x7⟩

/-- A discovery-phase (`STATE_BUILDING_BRANCHES`) execution of any routine
touches only `paths`, `currentPath` and `branchId`: all block, buffer and
stack state is untouched, whether it completes or raises. -/
lemma execRoutine_building (r : Routine) :
    ∀ s : Engine, s.state = STATE_BUILDING_BRANCHES →
      (match execRoutine r s with
       | .ok s' => sameBuildCore s s'
       | .error (_, s') => sameBuildCore s s') := by
  induction r with
  | ret => intro s hs; exact sameBuildCore_refl s
  | unknown v sz k ih =>
      intro s hs
      have : (s.state == STATE_COMPILING) = false := by
        simp [hs, STATE_BUILDING_BRANCHES, STATE_COMPILING]
      simp only [execRoutine, this, Bool.false_eq_true, if_false]
      exact ih s hs
  | branch c kT kF ihT ihF =>
      intro s hs
      have hnc : (s.state == STATE_COMPILING) = false := by
        simp [hs, STATE_BUILDING_BRANCHES, STATE_COMPILING]
      simp only [execRoutine, Engine.branch]
      cases hget : s.currentPath.get? s.branchId with
      | none => exact ⟨rfl, rfl, rfl, rfl, rfl, rfl, rfl⟩
      | some v =>
          simp only [hnc, Bool.false_eq_true, if_false]
          by_cases hv : v
          · subst hv
            simp only [if_true]
            exact ihT _ hs
          · simp only [hv, if_false]
            exact ihF _ hs
  | call sid body k ihb ihk =>
      intro s hs
      have hnc : (s.state == STATE_COMPILING) = false := by
        simp [hs, STATE_BUILDING_BRANCHES, STATE_COMPILING]
      simp only [execRoutine, hnc, Bool.false_eq_true, if_false]
      have hbody := ihb s hs
      cases hb : execRoutine body s with
      | error es =>
          rw [hb] at hbody
          exact hbody
      | ok s1 =>
          rw [hb] at hbody
          have hs1 : s1.state = STATE_BUILDING_BRANCHES := hbody.1.trans hs
          have hnc1 : (s1.state == STATE_COMPILING) = false := by
            simp [hs1, STATE_BUILDING_BRANCHES, STATE_COMPILING]
          simp only [hnc1, Bool.false_eq_true, if_false]
          have hk := ihk s1 hs1
          cases hkres : execRoutine k s1 with
          | error es =>
              rw [hkres] at hk
              obtain ⟨e, s2⟩ := es
              exact sameBuildCore_trans hbody hk
          | ok s2 =>
              rw [hkres] at hk
              exact sameBuildCore_trans hbody hk
  | loop c k ih =>
      intro s hs
      exact sameBuildCore_refl s
  | ifCompiling kC kE ihC ihE =>
      intro s hs
      have hnc : (s.state == STATE_COMPILING) = false := by
        simp [hs, STATE_BUILDING_BRANCHES, STATE_COMPILING]
      simp only [execRoutine, hnc, Bool.false_eq_true, if_false]
      exact ihE s hs

/-- Transport a loop-result invariant along `sameBuildCore`. -/
lemma loopCoreInv_mono {res : Option (Except (RunErr × Engine) Engine)}
    {a b : Engine} (hab : sameBuildCore a b) (h : loopCoreInv b res) :
    loopCoreInv a res := by
  cases res with
  | none => exact trivial
  | some r =>
      cases r with
      | ok s' => exact sameBuildCore_trans hab h
      | error es =>
          obtain ⟨e, s'⟩ := es
          exact sameBuildCore_trans hab h

/-- The discovery worklist loop preserves all block, buffer and stack state,
on normal exit and on a propagated exception alike. -/
lemma findBranchesLoop_building (fuel : Nat) (r : Routine) :
    ∀ s : Engine, s.state = STATE_BUILDING_BRANCHES →
      loopCoreInv s (findBranchesLoop fuel r s) := by
  induction fuel with
  | zero => intro s hs; exact trivial
  | succ fuel ih =>
      intro s hs
      rw [findBranchesLoop]
      by_cases h : s.pathId < s.paths.length
      · rw [dif_pos h]
        set s2 : Engine :=
          { s with currentPath := (s.paths.get ⟨s.pathId, h⟩).ds, branchId := 0 }
          with hs2
        dsimp only
        have hcore2 : sameBuildCore s s2 := ⟨rfl, rfl, rfl, rfl, rfl, rfl, rfl⟩
        have hs2state : s2.state = STATE_BUILDING_BRANCHES := hs
        have hexec := execRoutine_building r s2 hs2state
        cases hx : execRoutine r s2 with
        | ok s3 =>
            rw [hx] at hexec
            have hcx : sameBuildCore s2 s3 := hexec
            have hs3 : s3.state = STATE_BUILDING_BRANCHES := hcx.1.trans hs2state
            have hrec := ih { s3 with pathId := s3.pathId + 1 } hs3
            have hcore3 : sameBuildCore s { s3 with pathId := s3.pathId + 1 } :=
              sameBuildCore_trans (sameBuildCore_trans hcore2 hcx)
                ⟨rfl, rfl, rfl, rfl, rfl, rfl, rfl⟩
            exact loopCoreInv_mono hcore3 hrec
        | error es =>
            rw [hx] at hexec
            obtain ⟨e, s3⟩ := es
            have hcx : sameBuildCore s2 s3 := hexec
            have hs3 : s3.state = STATE_BUILDING_BRANCHES := hcx.1.trans hs2state
            cases e with
            | newBranch =>
                have hrec := ih
                  { s3 with paths := s3.paths.set s3.pathId ⟨s3.currentPath, true⟩,
                            pathId := s3.pathId + 1 } hs3
                have hcore4 : sameBuildCore s
                    { s3 with paths := s3.paths.set s3.pathId ⟨s3.currentPath, true⟩,
                              pathId := s3.pathId + 1 } :=
                  sameBuildCore_trans (sameBuildCore_trans hcore2 hcx)
                    ⟨rfl, rfl, rfl, rfl, rfl, rfl, rfl⟩
                exact loopCoreInv_mono hcore4 hrec
            | loopErr =>
                exact sameBuildCore_trans hcore2 hcx
      · rw [dif_neg h]
        exact sameBuildCore_refl s

/-- Every exception escaping the discovery worklist loop is the `loop`
`NotImplementedError`: the `NewBranch` escape is always caught by the loop. -/
lemma findBranchesLoop_escape (fuel : Nat) (r : Routine) :
    ∀ s : Engine, errIsLoopErr (findBranchesLoop fuel r s) := by
  induction fuel with
  | zero => intro s; exact trivial
  | succ fuel ih =>
      intro s
      rw [findBranchesLoop]
      by_cases h : s.pathId < s.paths.length
      · rw [dif_pos h]
        set s2 : Engine :=
          { s with currentPath := (s.paths.get ⟨s.pathId, h⟩).ds, branchId := 0 }
          with hs2
        dsimp only
        cases hx : execRoutine r s2 with
        | ok s3 => exact ih { s3 with pathId := s3.pathId + 1 }
        | error es =>
            obtain ⟨e, s3⟩ := es
            cases e with
            | newBranch =>
                exact ih { s3 with
                  paths := s3.paths.set s3.pathId ⟨s3.currentPath, true⟩,
                  pathId := s3.pathId + 1 }
            | loopErr => exact rfl
      · rw [dif_neg h]
        exact trivial

/-- A failing discovery loop leaves the block arena and the buffer exactly as
they were when the loop started. -/
lemma findBranchesLoop_err_keeps (fuel : Nat) (r : Routine) (s : Engine)
    (hs : s.state = STATE_BUILDING_BRANCHES) :
    discErrKeeps s (findBranchesLoop fuel r s) := by
  have hinv := findBranchesLoop_building fuel r s hs
  cases hres : findBranchesLoop fuel r s with
  | none => exact trivial
  | some res =>
      rw [hres] at hinv
      cases res with
      | ok s' => exact trivial
      | error es =>
          obtain ⟨e, s'⟩ := es
          have hcore : sameBuildCore s s' := hinv
          exact ⟨hcore.2.1, hcore.2.2.1⟩

/-- C1 (amended): the discovery loop for `r1` yields the feasible paths in
the order [(true,), (false,)] already before sorting (the claim's pre-sort
order [(false,), (true,)] is not what the code produces), and the reverse
sort keeps [(true,), (false,)]; compiling yields root block 0 with content
eight zero bytes holding exactly the two adjacent 4-byte placeholder slots at
offsets 0 and 4, the true slot (offset 0) linked to block 1 with content
[0x01] and the false slot (offset 4) linked to block 2 with content [0x02]. -/
theorem c1_theorem :
    discoveredRaw r1 4 = some [[true], [false]] ∧
    (Engine.init.compile r1 4).map
        (fun p => (p.1, p.2.blocks, p.2.paths.map PathEntry.ds))
      = some (Except.ok 0,
          [⟨[0, 0, 0, 0, 0, 0, 0, 0], [(4, 2), (0, 1)]⟩,
           ⟨[1], []⟩, ⟨[2], []⟩],
          [[true], [false]]) ∧
    assocLookup ([(4, 2), (0, 1)] : List (Nat × Nat)) 0 = some 1 ∧
    assocLookup ([(4, 2), (0, 1)] : List (Nat × Nat)) 4 = some 2 :=
  ⟨rfl, rfl, rfl, rfl⟩

/-- C1 is wrong about the order discovery yields the paths in: `branch`
appends the true continuation before the false one, so the worklist produces
[(true,), (false,)], not [(false,), (true,)]. -/
theorem c1_counterexample :
    discoveredRaw r1 4 = some [[true], [false]] ∧
    discoveredRaw r1 4 ≠ some [[false], [true]] :=
  ⟨rfl, by decide⟩

/-- C3 (amended): two call sites invoking the same subroutine object from the
same enclosing decision context are wired to one and the same block (the
memoization key is the whole `path_stack`, whose top is the subroutine
identity): compiling `rShared` wires both call placeholders (offsets 0 and 4
of the root) to the single shared block 1. -/
theorem c3_theorem :
    (Engine.init.compile rShared 2).map (fun p => (p.1, p.2.blocks))
      = some (Except.ok 0,
          [⟨[0, 0, 0, 0, 0, 0, 0, 0], [(4, 1), (0, 1)]⟩, ⟨[7], []⟩]) ∧
    assocLookup ([(4, 1), (0, 1)] : List (Nat × Nat)) 0
      = assocLookup ([(4, 1), (0, 1)] : List (Nat × Nat)) 4 :=
  ⟨rfl, rfl⟩

/-- C3 as stated is false: block reuse is keyed by the full decision context,
not by subroutine identity alone.  Compiling `rCtx` — the same subroutine
object called from the two arms of a branch — wires the two call-site
placeholders to two different blocks (ids 2 and 4), so the subroutine is
compiled twice, not into one shared block. -/
theorem c3_counterexample :
    (Engine.init.compile rCtx 4).map
        (fun p => (p.1, (p.2.blocks.getD 1 ⟨[], []⟩).jumps,
                   (p.2.blocks.getD 3 ⟨[], []⟩).jumps))
      = some (Except.ok 0, [(0, 2)], [(0, 4)]) ∧
    ([((0 : Nat), (2 : Nat))] : List (Nat × Nat)) ≠ [(0, 4)] :=
  ⟨rfl, by decide⟩

/-- C5 (amended): during discovery the escape signal is always caught inside
the worklist loop (any exception it lets escape is the `loop` error); but
when `branch` is asked for a decision beyond the recorded path during the
compile phase, the engine appends the two continuation paths to the path set
and raises the `NewBranch` escape itself out of `compile` — a fatal,
unrecovered failure (the path's compilation stops), with the state restored
to Idle. -/
theorem c5_theorem :
    (∀ (fuel : Nat) (r : Routine) (s : Engine),
        errIsLoopErr (findBranchesLoop fuel r s)) ∧
    (Engine.init.compile rDiv 2).map
        (fun p => (p.1, p.2.paths.map PathEntry.ds, p.2.state))
      = some (Except.error RunErr.newBranch, [[], [true], [false]], STATE_IDLE) :=
  ⟨findBranchesLoop_escape, rfl⟩

/-- C5 as stated is false on both counts at the diverging routine `rDiv`:
`compile` raises the internal escape signal (`NewBranch`) to its caller, and
the path set is extended from the single discovered path to three. -/
theorem c5_counterexample :
    (Engine.init.compile rDiv 2).map (fun p => (p.1, p.2.paths.length))
      = some (Except.error RunErr.newBranch, 3) ∧
    (3 : Nat) ≠ 1 :=
  ⟨rfl, by decide⟩

/-- C6 (amended): a `loop` call reached during discovery makes `compile` fail
with the unsupported-construct error before any bytes are written to any
block or buffer (the block arena and buffer are exactly as at entry — for a
fresh engine, empty); and if the `loop` call precedes any branch decision,
the failure happens on the first exploration run with no continuation paths
enqueued.  However, branches explored before the `loop` call is reached may
already have enqueued continuation paths. -/
theorem c6_theorem :
    (∀ (fuel : Nat) (r : Routine) (s : Engine),
        discErrKeeps { s with state := STATE_BUILDING_BRANCHES }
          (findBranchesLoop fuel r { s with state := STATE_BUILDING_BRANCHES })) ∧
    (Engine.init.compile rL 1).map
        (fun p => (p.1, p.2.paths.map PathEntry.ds, p.2.blocks, p.2.buf))
      = some (Except.error RunErr.loopErr, [[]], [], []) ∧
    (Engine.init.compile rBL 2).map (fun p => (p.1, p.2.blocks, p.2.buf))
      = some (Except.error RunErr.loopErr, [], []) :=
  ⟨fun fuel r s =>
    findBranchesLoop_err_keeps fuel r { s with state := STATE_BUILDING_BRANCHES }
      rfl, rfl, rfl⟩

/-- C6 as stated is false about "no continuation paths are enqueued": for
`rBL`, whose `loop` call sits behind a branch, the failing `compile` leaves
three path entries (the dead root and the two enqueued continuations), not
one. -/
theorem c6_counterexample :
    (Engine.init.compile rBL 2).map (fun p => (p.1, p.2.paths.length))
      = some (Except.error RunErr.loopErr, 3) ∧
    (3 : Nat) ≠ 1 :=
  ⟨rfl, by decide⟩

/-- Discovery-phase run of a routine that requests exactly `n` decisions:
starting at a consistent position, it completes exactly when the recorded
path has at least `n` further decisions, advancing `branch_id` by `n`;
otherwise it enqueues the two continuations of the full recorded path and
raises the escape, with `branch_id` stopped at the recorded length. -/
lemma execRoutine_uniform {r : Routine} {n : Nat} (hu : Uniform r n) :
    ∀ s : Engine, s.state = STATE_BUILDING_BRANCHES →
      s.branchId ≤ s.currentPath.length →
      execRoutine r s =
        (if s.branchId + n ≤ s.currentPath.length
         then .ok { s with branchId := s.branchId + n }
         else .error (.newBranch,
           { s with branchId := s.currentPath.length,
                    paths := s.paths ++
                      [⟨s.currentPath ++ [true], false⟩,
                       ⟨s.currentPath ++ [false], false⟩] })) := by
  induction hu with
  | ret =>
      intro s hs hb
      rw [if_pos (by omega : s.branchId + 0 ≤ s.currentPath.length)]
      rfl
  | unknown hk ih =>
      intro s hs hb
      have hnc : (s.state == STATE_COMPILING) = false := by
        simp [hs, STATE_BUILDING_BRANCHES, STATE_COMPILING]
      simp only [execRoutine, hnc, Bool.false_eq_true, if_false]
      exact ih s hs hb
  | branch hT hF ihT ihF =>
      rename_i c kT kF m
      intro s hs hb
      have hnc : (s.state == STATE_COMPILING) = false := by
        simp [hs, STATE_BUILDING_BRANCHES, STATE_COMPILING]
      simp only [execRoutine, Engine.branch]
      cases hget : s.currentPath.get? s.branchId with
      | none =>
          have hbl : s.currentPath.length ≤ s.branchId := List.get?_eq_none.mp hget
          have hbeq : s.branchId = s.currentPath.length := by omega
          rw [if_neg (by omega : ¬ s.branchId + (m + 1) ≤ s.currentPath.length)]
          rw [← hbeq]
      | some v =>
          obtain ⟨hlt, -⟩ := List.get?_eq_some.mp hget
          simp only [hnc, Bool.false_eq_true, if_false]
          cases v with
          | true =>
              simp only [if_true]
              rw [ihT { s with branchId := s.branchId + 1 } hs (by simpa using hlt)]
              rw [show s.branchId + 1 + m = s.branchId + (m + 1) from by omega]
          | false =>
              simp only [Bool.false_eq_true, if_false]
              rw [ihF { s with branchId := s.branchId + 1 } hs (by simpa using hlt)]
              rw [show s.branchId + 1 + m = s.branchId + (m + 1) from by omega]
  | call hbody hk ihb ihk =>
      rename_i sid body k m p
      intro s hs hb
      have hnc : (s.state == STATE_COMPILING) = false := by
        simp [hs, STATE_BUILDING_BRANCHES, STATE_COMPILING]
      simp only [execRoutine, hnc, Bool.false_eq_true, if_false]
      rw [ihb s hs hb]
      by_cases hcond : s.branchId + m ≤ s.currentPath.length
      · rw [if_pos hcond]
        dsimp only
        simp only [hnc, Bool.false_eq_true, if_false]
        rw [ihk { s with branchId := s.branchId + m } hs hcond]
        have harith : s.branchId + m + p = s.branchId + (m + p) := by omega
        rw [harith]
      · rw [if_neg hcond]
        rw [if_neg (by omega : ¬ s.branchId + (m + p) ≤ s.currentPath.length)]
  | ifCompiling hC hE ihC ihE =>
      intro s hs hb
      have hnc : (s.state == STATE_COMPILING) = false := by
        simp [hs, STATE_BUILDING_BRANCHES, STATE_COMPILING]
      simp only [execRoutine, hnc, Bool.false_eq_true, if_false]
      exact ihE s hs hb

lemma get_append_len {α : Type} (l1 : List α) (x : α) (l2 : List α)
    (h : l1.length < (l1 ++ x :: l2).length) :
    (l1 ++ x :: l2).get ⟨l1.length, h⟩ = x := by
  induction l1 with
  | nil => rfl
  | cons a l ih => exact ih (by simp)

lemma set_append_len {α : Type} (l1 : List α) (x y : α) (l2 : List α) :
    (l1 ++ x :: l2).set l1.length y = l1 ++ y :: l2 := by
  induction l1 with
  | nil => rfl
  | cons a l ih =>
      show a :: ((l ++ x :: l2).set l.length y) = a :: (l ++ y :: l2)
      rw [ih]

lemma weightSum_append (k : Nat) (l1 l2 : List PathEntry) :
    weightSum k (l1 ++ l2) = weightSum k l1 + weightSum k l2 := by
  simp [weightSum]

lemma leavesSum_append (k : Nat) (l1 l2 : List PathEntry) :
    leavesSum k (l1 ++ l2) = leavesSum k l1 + leavesSum k l2 := by
  simp [leavesSum]

lemma undeadLen_append (l1 l2 : List PathEntry) :
    undeadLen (l1 ++ l2) = undeadLen l1 + undeadLen l2 := by
  simp [undeadLen]

lemma pathWeight_pos (k l : Nat) : 1 ≤ pathWeight k l := by
  unfold pathWeight
  split
  · rename_i h
    have h2 : 2 ^ 1 ≤ 2 ^ (k + 1 - l) := Nat.pow_le_pow_right (by norm_num) (by omega)
    simp at h2
    omega
  · omega

lemma pathLeaves_of_ge (k l : Nat) (h : k ≤ l) : pathLeaves k l = 1 := by
  unfold pathLeaves
  split
  · rename_i h2
    have : l = k := by omega
    subst this
    simp
  · rfl

lemma pathWeight_split (k l : Nat) (h : l < k) :
    pathWeight k l = 2 * pathWeight k (l + 1) + 1 := by
  unfold pathWeight
  rw [if_pos (by omega : l ≤ k), if_pos (by omega : l + 1 ≤ k)]
  have hp : 2 ^ (k + 1 - l) = 2 ^ (k - l) * 2 := by
    rw [show k + 1 - l = (k - l) + 1 from by omega, pow_succ]
  have hq : 2 ^ (k - l) = 2 ^ (k + 1 - (l + 1)) := by
    congr 1
    omega
  have hpos : 0 < 2 ^ (k + 1 - (l + 1)) := pow_pos (by norm_num) _
  rw [hq] at hp
  omega

lemma pathLeaves_split (k l : Nat) (h : l < k) :
    pathLeaves k l = pathLeaves k (l + 1) + pathLeaves k (l + 1) := by
  unfold pathLeaves
  rw [if_pos (by omega : l ≤ k), if_pos (by omega : l + 1 ≤ k)]
  have hp : 2 ^ (k - l) = 2 ^ (k - (l + 1)) * 2 := by
    rw [← pow_succ]
    congr 1
    omega
  omega

lemma insertEntry_length (e : PathEntry) (l : List PathEntry) :
    (insertEntry e l).length = l.length + 1 := by
  induction l with
  | nil => rfl
  | cons x xs ih =>
      unfold insertEntry
      split
      · simp
      · simp only [List.length_cons, ih]

lemma sortEntries_length (l : List PathEntry) :
    (sortEntries l).length = l.length := by
  induction l with
  | nil => rfl
  | cons x xs ih =>
      unfold sortEntries
      rw [insertEntry_length, ih]
      rfl

/-- The discovery worklist loop, run on a routine that requests exactly `k`
decisions per execution: started with `done` processed entries and a pending
suffix, it terminates within the pending weight and the surviving-entry count
grows by exactly the number of terminal paths the pending entries expand
into. -/
lemma findBranchesLoop_uniform {r : Routine} {k : Nat} (hu : Uniform r k) :
    ∀ (fuel : Nat) (done pending : List PathEntry) (s : Engine),
      s.state = STATE_BUILDING_BRANCHES →
      s.paths = done ++ pending →
      s.pathId = done.length →
      (∀ e ∈ pending, e.dead = false) →
      weightSum k pending < fuel →
      ∃ s' : Engine, findBranchesLoop fuel r s = some (.ok s') ∧
        undeadLen s'.paths = undeadLen done + leavesSum k pending := by
  intro fuel
  induction fuel with
  | zero =>
      intro done pending s _ _ _ _ hw
      exact absurd hw (Nat.not_lt_zero _)
  | succ fuel ih =>
      intro done pending s hs hpaths hpid hund hw
      obtain ⟨st, bu, stk, cb, sb, ps, bl, paths, lp, cp, bid, pid⟩ := s
      dsimp only at hs hpaths hpid
      subst hs hpaths hpid
      cases pending with
      | nil =>
          rw [findBranchesLoop]
          dsimp only
          rw [dif_neg (by simp)]
          refine ⟨_, rfl, ?_⟩
          dsimp only
          simp [undeadLen, leavesSum]
      | cons e rest =>
          have hlt : done.length < (done ++ e :: rest).length := by simp
          rw [findBranchesLoop]
          dsimp only
          rw [dif_pos hlt]
          rw [get_append_len done e rest hlt]
          have hrun := execRoutine_uniform hu
            ⟨STATE_BUILDING_BRANCHES, bu, stk, cb, sb, ps, bl,
             done ++ e :: rest, lp, e.ds, 0, done.length⟩
            rfl (Nat.zero_le _)
          dsimp only at hrun
          rw [hrun]
          by_cases hcomp : k ≤ e.ds.length
          · rw [if_pos (by omega : 0 + k ≤ e.ds.length)]
            have hwr : weightSum k rest < fuel := by
              have h1 : weightSum k (e :: rest)
                  = pathWeight k e.ds.length + weightSum k rest := by
                simp [weightSum]
              have h2 := pathWeight_pos k e.ds.length
              omega
            obtain ⟨s', hrun', hcount'⟩ := ih (done ++ [e]) rest
              ⟨STATE_BUILDING_BRANCHES, bu, stk, cb, sb, ps, bl,
               done ++ e :: rest, lp, e.ds, 0 + k, done.length + 1⟩
              rfl (by simp) (by simp) (fun e' he' => hund e' (by simp [he'])) hwr
            refine ⟨s', hrun', ?_⟩
            have h1 : undeadLen [e] = 1 := by
              simp [undeadLen, hund e (by simp)]
            have h2 : leavesSum k (e :: rest)
                = pathLeaves k e.ds.length + leavesSum k rest := by
              simp [leavesSum]
            rw [hcount', undeadLen_append, h1, h2, pathLeaves_of_ge k _ hcomp]
            omega
          · rw [if_neg (by omega : ¬ 0 + k ≤ e.ds.length)]
            have hset : ((done ++ e :: rest) ++
                  ([⟨e.ds ++ [true], false⟩, ⟨e.ds ++ [false], false⟩] :
                    List PathEntry)).set
                  done.length (⟨e.ds, true⟩ : PathEntry)
                = done ++ (⟨e.ds, true⟩ : PathEntry) ::
                    (rest ++ [⟨e.ds ++ [true], false⟩, ⟨e.ds ++ [false], false⟩]) := by
              rw [List.append_assoc, List.cons_append]
              exact set_append_len done e ⟨e.ds, true⟩ _
            have hlen1 : (e.ds ++ [true]).length = e.ds.length + 1 := by simp
            have hlen2 : (e.ds ++ [false]).length = e.ds.length + 1 := by simp
            have hwr : weightSum k
                (rest ++ [⟨e.ds ++ [true], false⟩, ⟨e.ds ++ [false], false⟩])
                < fuel := by
              have hsplit := pathWeight_split k e.ds.length (by omega)
              have h1 : weightSum k (e :: rest)
                  = pathWeight k e.ds.length + weightSum k rest := by
                simp [weightSum]
              have h2 : weightSum k
                  (rest ++ [⟨e.ds ++ [true], false⟩, ⟨e.ds ++ [false], false⟩])
                  = weightSum k rest + pathWeight k (e.ds.length + 1)
                    + pathWeight k (e.ds.length + 1) := by
                rw [weightSum_append]
                simp [weightSum, hlen1, hlen2]
                omega
              omega
            obtain ⟨s', hrun', hcount'⟩ := ih (done ++ [⟨e.ds, true⟩])
              (rest ++ [⟨e.ds ++ [true], false⟩, ⟨e.ds ++ [false], false⟩])
              ⟨STATE_BUILDING_BRANCHES, bu, stk, cb, sb, ps, bl,
               done ++ (⟨e.ds, true⟩ : PathEntry) ::
                 (rest ++ [⟨e.ds ++ [true], false⟩, ⟨e.ds ++ [false], false⟩]),
               lp, e.ds, e.ds.length, done.length + 1⟩
              rfl (by simp) (by simp)
              (by
                intro e' he'
                rcases List.mem_append.mp he' with h | h
                · exact hund e' (by simp [h])
                · simp at h
                  rcases h with h | h <;> subst h <;> rfl) hwr
            refine ⟨s', ?_, ?_⟩
            · rw [← hrun']
              dsimp only
              rw [hset]
            · have h0 : undeadLen [(⟨e.ds, true⟩ : PathEntry)] = 0 := by
                simp [undeadLen]
              have h2 : leavesSum k (e :: rest)
                  = pathLeaves k e.ds.length + leavesSum k rest := by
                simp [leavesSum]
              have h3 : leavesSum k
                  (rest ++ [⟨e.ds ++ [true], false⟩, ⟨e.ds ++ [false], false⟩])
                  = leavesSum k rest + pathLeaves k (e.ds.length + 1)
                    + pathLeaves k (e.ds.length + 1) := by
                rw [leavesSum_append]
                simp [leavesSum, hlen1, hlen2]
                omega
              have hsplit := pathLeaves_split k e.ds.length (by omega)
              rw [hcount', undeadLen_append, h0, h2, h3, hsplit]
              omega

/-- Two-step unrolling of the discovery loop for a branch-free routine: the
single empty path is processed and the loop exits. -/
lemma findBranchesLoop_zeroUniform {r : Routine} (hu : Uniform r 0)
    (fuel : Nat) (bu stk : List Nat) (cb : Nat) (sb : List (List Token × Nat))
    (ps : List Token) (bl : List EngineBlock) (lp : List Nat)
    (cp0 : List Bool) (bid0 : Nat) :
    findBranchesLoop (fuel + 1 + 1) r
      ⟨STATE_BUILDING_BRANCHES, bu, stk, cb, sb, ps, bl, [⟨[], false⟩], lp,
       cp0, bid0, 0⟩
      = some (.ok ⟨STATE_BUILDING_BRANCHES, bu, stk, cb, sb, ps, bl,
          [⟨[], false⟩], lp, [], 0 + 0, 0 + 1⟩) := by
  have hrun := execRoutine_uniform hu
    ⟨STATE_BUILDING_BRANCHES, bu, stk, cb, sb, ps, bl, [⟨[], false⟩], lp,
     [], 0, 0⟩ rfl (Nat.le_refl _)
  dsimp only at hrun
  rw [if_pos (by omega : 0 + 0 ≤ ([] : List Bool).length)] at hrun
  rw [findBranchesLoop]
  dsimp only
  rw [dif_pos
    (show 0 < ([⟨[], false⟩] : List PathEntry).length from by norm_num)]
  simp only [List.get]
  rw [hrun]
  dsimp only
  rw [findBranchesLoop]
  dsimp only
  rw [dif_neg
    (show ¬ (0 + 1 < ([⟨[], false⟩] : List PathEntry).length) from by
      norm_num)]

/-- C2: for a routine that makes exactly `k` branch calls on every execution
(whatever decisions are fed back), the discovery phase terminates (with fuel
`2^(k+1)`) and produces exactly `2^k` terminal paths; for `k = 0` that one
path is the empty decision sequence. -/
theorem c2_theorem (r : Routine) (k : Nat) (hu : Uniform r k) (s : Engine) :
    ∃ s' : Engine,
      Engine.find_branches { s with state := STATE_BUILDING_BRANCHES } r
          (2 ^ (k + 1)) = some (.ok s') ∧
      s'.paths.length = 2 ^ k ∧
      (k = 0 → s'.paths.map PathEntry.ds = [[]]) := by
  obtain ⟨st, bu, stk, cb, sb, ps, bl, paths0, lp, cp, bid, pid⟩ := s
  cases k with
  | zero =>
      refine ⟨⟨STATE_BUILDING_BRANCHES, bu, stk, cb, sb, ps, bl,
         [⟨[], false⟩], [], [], 0 + 0, 0 + 1⟩, ?_, rfl, fun _ => rfl⟩
      unfold Engine.find_branches
      dsimp only
      rw [show (2 : Nat) ^ (0 + 1) = 0 + 1 + 1 from by norm_num]
      rw [findBranchesLoop_zeroUniform hu 0 bu stk cb sb ps bl [] cp bid]
      rfl
  | succ n =>
      obtain ⟨s2, hrun, hcount⟩ := findBranchesLoop_uniform hu
        (2 ^ (n + 1 + 1)) [] [⟨[], false⟩]
        ⟨STATE_BUILDING_BRANCHES, bu, stk, cb, sb, ps, bl,
         [⟨[], false⟩], [], cp, bid, 0⟩
        rfl rfl rfl
        (by intro e he; simp at he; subst he; rfl)
        (by simp [weightSum, pathWeight])
      refine ⟨{ s2 with
          paths := sortEntries (s2.paths.filter fun path => !path.dead) },
        ?_, ?_, fun h => absurd h (Nat.succ_ne_zero n)⟩
      · unfold Engine.find_branches
        dsimp only
        rw [hrun]
      · dsimp only
        rw [sortEntries_length]
        have hgoal : undeadLen s2.paths = 2 ^ (n + 1) := by
          rw [hcount]
          simp [undeadLen, leavesSum, pathLeaves]
        exact hgoal

/-- Witness for C2 at the single-branch routine `rEx` (k = 1): discovery
yields exactly two terminal paths. -/
theorem c2_witness :
    ∃ s' : Engine,
      Engine.find_branches { Engine.init with state := STATE_BUILDING_BRANCHES }
          rEx (2 ^ (1 + 1)) = some (.ok s') ∧
      s'.paths.length = 2 ^ 1 ∧
      ((1 : Nat) = 0 → s'.paths.map PathEntry.ds = [[]]) :=
  c2_theorem rEx 1 (Uniform.branch Uniform.ret Uniform.ret) Engine.init

lemma assocLookup_mem {α β : Type} [DecidableEq α] {l : List (α × β)} {k : α}
    {v : β} (h : assocLookup l k = some v) : (k, v) ∈ l := by
  induction l with
  | nil => simp [assocLookup] at h
  | cons hd tl ih =>
      obtain ⟨k', v'⟩ := hd
      rw [assocLookup] at h
      by_cases hk : k' = k
      · subst hk
        rw [if_pos rfl] at h
        obtain rfl := Option.some.inj h
        exact List.mem_cons_self _ _
      · rw [if_neg hk] at h
        exact List.mem_cons_of_mem _ (ih h)

lemma assocLookup_none_not_mem {α β : Type} [DecidableEq α]
    {l : List (α × β)} {k : α} (h : assocLookup l k = none) :
    ∀ v : β, (k, v) ∉ l := by
  induction l with
  | nil => intro v hv; simp at hv
  | cons hd tl ih =>
      obtain ⟨k', v'⟩ := hd
      rw [assocLookup] at h
      by_cases hk : k' = k
      · rw [if_pos hk] at h
        exact Option.noConfusion h
      · rw [if_neg hk] at h
        intro v hv
        rcases List.mem_cons.mp hv with h1 | h1
        · exact hk (congrArg Prod.fst h1.symm)
        · exact ih h v h1

lemma assocLookup_of_mem_nodup {l : List (Nat × Nat)}
    (hnd : (l.map Prod.fst).Nodup) {k v : Nat} (hm : (k, v) ∈ l) :
    assocLookup l k = some v := by
  induction l with
  | nil => simp at hm
  | cons hd tl ih =>
      obtain ⟨k', v'⟩ := hd
      rw [assocLookup]
      rw [List.map_cons] at hnd
      rcases List.mem_cons.mp hm with h1 | h1
      · injection h1 with hk hv
        subst hk hv
        rw [if_pos rfl]
      · have hk : k' ≠ k := by
          intro hkk
          subst hkk
          have hmem : k' ∈ tl.map Prod.fst := List.mem_map.mpr ⟨(k', v), h1, rfl⟩
          exact (List.nodup_cons.mp hnd).1 hmem
        rw [if_neg hk]
        exact ih (List.nodup_cons.mp hnd).2 h1

lemma nodup_key_unique {l : List (Nat × Nat)}
    (hnd : (l.map Prod.fst).Nodup) {k a b : Nat}
    (ha : (k, a) ∈ l) (hb : (k, b) ∈ l) : a = b := by
  have h1 := assocLookup_of_mem_nodup hnd ha
  have h2 := assocLookup_of_mem_nodup hnd hb
  rw [h1] at h2
  exact Option.some.inj h2

lemma inRegion_true_of {jumps : List (Nat × Nat)} {p : Nat × Nat}
    (hm : p ∈ jumps) (pos : Nat) (h1 : p.1 ≤ pos)
    (h2 : pos < p.1 + pointer_size) :
    inRegion jumps pos = true := by
  unfold inRegion
  rw [List.any_eq_true]
  exact ⟨p, hm, by simp [h1, h2]⟩

lemma inRegion_false_iff {jumps : List (Nat × Nat)} {pos : Nat} :
    inRegion jumps pos = false ↔
      ∀ p ∈ jumps, ¬ (p.1 ≤ pos ∧ pos < p.1 + pointer_size) := by
  unfold inRegion
  rw [← Bool.not_eq_true, List.any_eq_true]
  constructor
  · intro h p hp hc
    exact h ⟨p, hp, by simp [hc.1, hc.2]⟩
  · rintro h ⟨p, hp, hc⟩
    simp at hc
    exact h p hp ⟨hc.1, hc.2⟩

lemma mem_key {l : List (Nat × Nat)} {p : Nat × Nat} (hp : p ∈ l) {k : Nat}
    (he : p.1 = k) : (k, p.2) ∈ l := by
  rw [← he, Prod.mk.eta]
  exact hp

/-- The `__eq__` walk, characterised: it succeeds exactly when every byte at
or beyond `idx` outside the left block's placeholder regions matches, and
every jump offset at or beyond `idx` has a matching jump in the right block
with `cmp`-related target.  Requires the left jump map well-formed and `idx`
not inside any placeholder region. -/
lemma eqWalkGas_iff (cmp : Nat → Nat → Bool) (sbuff : List Nat)
    (sjumps : List (Nat × Nat)) (obuff : List Nat) (ojumps : List (Nat × Nat))
    (hWF : WFjumps sbuff.length sjumps) :
    ∀ (n idx : Nat), sbuff.length - idx ≤ n →
      (∀ p ∈ sjumps, idx ≤ p.1 ∨ p.1 + pointer_size ≤ idx) →
      (eqWalkGas cmp sbuff sjumps obuff ojumps n idx = true ↔
        ((∀ pos, idx ≤ pos → pos < sbuff.length → inRegion sjumps pos = false →
            sbuff.getD pos 0 = obuff.getD pos 0) ∧
         (∀ p ∈ sjumps, idx ≤ p.1 →
            ∃ t2, assocLookup ojumps p.1 = some t2 ∧ cmp p.2 t2 = true))) := by
  obtain ⟨hnd, hin, hsep⟩ := hWF
  have hps : pointer_size = 4 := rfl
  intro n
  induction n with
  | zero =>
      intro idx hn hs
      rw [eqWalkGas]
      constructor
      · intro _
        constructor
        · intro pos h1 h2 _
          exact absurd h2 (by omega)
        · intro p hp hip
          have := hin p hp
          exact absurd hip (by omega)
      · intro _
        rfl
  | succ n ihn =>
      intro idx hn hs
      by_cases hidx : idx < sbuff.length
      case neg =>
          rw [eqWalkGas, if_neg hidx]
          constructor
          · intro _
            constructor
            · intro pos h1 h2 _
              exact absurd h2 (by omega)
            · intro p hp hip
              have := hin p hp
              exact absurd hip (by omega)
          · intro _
            rfl
      case pos =>
      rw [eqWalkGas, if_pos hidx]
      cases hsl : assocLookup sjumps idx with
      | some t1 =>
          have hmem := assocLookup_mem hsl
          have hs4 : ∀ p ∈ sjumps,
              idx + pointer_size ≤ p.1 ∨ p.1 + pointer_size ≤ idx + pointer_size := by
            intro p hp
            rcases hs p hp with h | h
            · by_cases hpe : p.1 = idx
              · right; omega
              · left
                rcases hsep p hp (idx, t1) hmem hpe with h2 | h2 <;> omega
            · right; omega
          cases hol : assocLookup ojumps idx with
          | none =>
              constructor
              · intro h
                cases h
              · rintro ⟨-, h2⟩
                rcases h2 (idx, t1) hmem (Nat.le_refl idx) with ⟨t2, ht2, -⟩
                rw [hol] at ht2
                cases ht2
          | some t2 =>
              rw [Bool.and_eq_true]
              rw [ihn (idx + pointer_size) (by omega) hs4]
              constructor
              · rintro ⟨hc, hbytes, hjumps⟩
                constructor
                · intro pos h1 h2 h3
                  by_cases hpos : idx + pointer_size ≤ pos
                  · exact hbytes pos hpos h2 h3
                  · exfalso
                    have hreg := inRegion_true_of hmem pos
                      (by omega) (by omega)
                    rw [h3] at hreg
                    cases hreg
                · intro p hp hip
                  by_cases hpe : p.1 = idx
                  · have hp2 : (idx, p.2) ∈ sjumps := mem_key hp hpe
                    have ht1 : p.2 = t1 := nodup_key_unique hnd hp2 hmem
                    refine ⟨t2, ?_, ?_⟩
                    · rw [hpe]
                      exact hol
                    · rw [ht1]
                      exact hc
                  · rcases hs4 p hp with h4 | h4
                    · exact hjumps p hp h4
                    · exact absurd (by omega : p.1 = idx) hpe
              · rintro ⟨hbytes, hjumps⟩
                rcases hjumps (idx, t1) hmem (Nat.le_refl _) with ⟨t2', ht2', hc'⟩
                rw [hol] at ht2'
                obtain rfl := Option.some.inj ht2'
                refine ⟨hc', ?_, ?_⟩
                · intro pos h1 h2 h3
                  exact hbytes pos (by omega) h2 h3
                · intro p hp hip
                  exact hjumps p hp (by omega)
      | none =>
          have hnotmem := assocLookup_none_not_mem hsl
          have hkey : ∀ p ∈ sjumps, p.1 ≠ idx := by
            intro p hp he
            exact hnotmem p.2 (mem_key hp he)
          have hs1 : ∀ p ∈ sjumps, idx + 1 ≤ p.1 ∨ p.1 + pointer_size ≤ idx + 1 := by
            intro p hp
            rcases hs p hp with h | h
            · left
              have := hkey p hp
              omega
            · right
              omega
          have hreg : inRegion sjumps idx = false := by
            rw [inRegion_false_iff]
            intro p hp hc
            rcases hs p hp with h | h
            · exact hkey p hp (by omega)
            · omega
          rw [Bool.and_eq_true, beq_iff_eq]
          rw [ihn (idx + 1) (by omega) hs1]
          constructor
          · rintro ⟨hb0, hbytes, hjumps⟩
            constructor
            · intro pos h1 h2 h3
              by_cases hpe : pos = idx
              · subst hpe
                exact hb0
              · exact hbytes pos (by omega) h2 h3
            · intro p hp hip
              have := hkey p hp
              exact hjumps p hp (by omega)
          · rintro ⟨hbytes, hjumps⟩
            refine ⟨hbytes idx (Nat.le_refl _) hidx hreg, ?_, ?_⟩
            · intro pos h1 h2 h3
              exact hbytes pos (by omega) h2 h3
            · intro p hp hip
              have := hkey p hp
              exact hjumps p hp (by omega)

/-- Form of the walk characterisation used on whole blocks. -/
lemma eqWalk_iff (cmp : Nat → Nat → Bool) (sbuff : List Nat)
    (sjumps : List (Nat × Nat)) (obuff : List Nat) (ojumps : List (Nat × Nat))
    (hWF : WFjumps sbuff.length sjumps) (idx : Nat)
    (hs : ∀ p ∈ sjumps, idx ≤ p.1 ∨ p.1 + pointer_size ≤ idx) :
    eqWalk cmp sbuff sjumps obuff ojumps idx = true ↔
      ((∀ pos, idx ≤ pos → pos < sbuff.length → inRegion sjumps pos = false →
          sbuff.getD pos 0 = obuff.getD pos 0) ∧
       (∀ p ∈ sjumps, idx ≤ p.1 →
          ∃ t2, assocLookup ojumps p.1 = some t2 ∧ cmp p.2 t2 = true)) := by
  unfold eqWalk
  exact eqWalkGas_iff cmp sbuff sjumps obuff ojumps hWF
    (sbuff.length - idx) idx (Nat.le_refl _) hs

/-- EngineBlock.__eq__ computes exactly the specified equality: on a
well-formed arena, the walk-based comparison agrees with the declarative
byte-outside-placeholder / recursive-at-jump characterisation, at every
recursion fuel. -/
lemma blockEq_eq_spec (blocks : List EngineBlock) (hWF : WFarena blocks) :
    ∀ (fuel i j : Nat), blockEq blocks fuel i j = specBlockEq blocks fuel i j := by
  have hps : pointer_size = 4 := rfl
  intro fuel
  induction fuel with
  | zero =>
      intro i j
      rfl
  | succ fuel ih =>
      intro i j
      rw [blockEq, specBlockEq]
      by_cases hij : (i == j) = true
      · rw [if_pos hij, if_pos hij]
      · rw [if_neg hij, if_neg hij]
        cases hgi : blocks.get? i with
        | none =>
            cases hgj : blocks.get? j with
            | none => rfl
            | some o => rfl
        | some s =>
            cases hgj : blocks.get? j with
            | none => rfl
            | some o =>
                have hWFs : WFjumps s.buff.length s.jumps := hWF s (List.get?_mem hgi)
                have hb : ((List.range s.buff.length).all fun pos =>
                      inRegion s.jumps pos ||
                      (s.buff.getD pos 0 == o.buff.getD pos 0)) = true ↔
                    (∀ pos, 0 ≤ pos → pos < s.buff.length →
                      inRegion s.jumps pos = false →
                      s.buff.getD pos 0 = o.buff.getD pos 0) := by
                  rw [List.all_eq_true]
                  constructor
                  · intro h pos _ h2 h3
                    have h4 := h pos (List.mem_range.mpr h2)
                    rw [h3, Bool.false_or, beq_iff_eq] at h4
                    exact h4
                  · intro h pos hpos
                    rw [Bool.or_eq_true]
                    cases hr : inRegion s.jumps pos with
                    | true => left; rfl
                    | false =>
                        right
                        rw [beq_iff_eq]
                        exact h pos (Nat.zero_le _) (List.mem_range.mp hpos) hr
                have hj : ((s.jumps.all fun p => decide (s.buff.length ≤ p.1) ||
                      match assocLookup o.jumps p.1 with
                      | none => false
                      | some t2 => specBlockEq blocks fuel p.2 t2) = true) ↔
                    (∀ p ∈ s.jumps, 0 ≤ p.1 →
                      ∃ t2, assocLookup o.jumps p.1 = some t2 ∧
                        blockEq blocks fuel p.2 t2 = true) := by
                  rw [List.all_eq_true]
                  constructor
                  · intro h p hp _
                    have hwp := hWFs.2.1 p hp
                    have h2 := h p hp
                    rw [Bool.or_eq_true] at h2
                    rcases h2 with h2 | h2
                    · rw [decide_eq_true_eq] at h2
                      omega
                    · cases hl : assocLookup o.jumps p.1 with
                      | none =>
                          rw [hl] at h2
                          cases h2
                      | some t2 =>
                          rw [hl] at h2
                          refine ⟨t2, rfl, ?_⟩
                          rw [ih]
                          exact h2
                  · intro h p hp
                    rcases h p hp (Nat.zero_le _) with ⟨t2, hl, hc⟩
                    rw [Bool.or_eq_true]
                    right
                    rw [hl]
                    show specBlockEq blocks fuel p.2 t2 = true
                    rw [← ih]
                    exact hc
                rw [Bool.eq_iff_iff]
                rw [Bool.and_eq_true, Bool.and_eq_true, Bool.and_eq_true]
                rw [eqWalk_iff (fun a b => blockEq blocks fuel a b) s.buff
                  s.jumps o.buff o.jumps hWFs 0
                  (by intro p hp; left; omega)]
                constructor
                · rintro ⟨hlen, hbytes, hjumps⟩
                  exact ⟨⟨hlen, hb.mpr hbytes⟩, hj.mpr hjumps⟩
                · rintro ⟨⟨hlen, hbytes⟩, hjumps⟩
                  exact ⟨hlen, hb.mp hbytes, hj.mp hjumps⟩

/-- Reflexivity of `EngineBlock.__eq__`: the `self is other` identity
shortcut makes every block equal itself, at any fuel. -/
lemma blockEq_refl (blocks : List EngineBlock) (fuel i : Nat) :
    blockEq blocks fuel i i = true := by
  cases fuel with
  | zero =>
      rw [blockEq]
      simp
  | succ fuel =>
      rw [blockEq]
      simp

/-- Insensitivity of `EngineBlock.__eq__` to the bytes stored inside
placeholder regions: two blocks with the same jump map and length whose
bytes agree outside the placeholder regions compare equal. -/
lemma blockEq_placeholder_insensitive (blocks : List EngineBlock)
    (hWF : WFarena blocks) (fuel i j : Nat) (s o : EngineBlock)
    (hgi : blocks.get? i = some s) (hgj : blocks.get? j = some o)
    (hjumps : o.jumps = s.jumps) (hlen : o.buff.length = s.buff.length)
    (hbytes : ∀ pos, pos < s.buff.length → inRegion s.jumps pos = false →
        s.buff.getD pos 0 = o.buff.getD pos 0) :
    blockEq blocks (fuel + 1) i j = true := by
  rw [blockEq_eq_spec blocks hWF]
  rw [specBlockEq]
  by_cases hij : (i == j) = true
  · rw [if_pos hij]
  · rw [if_neg hij]
    rw [hgi, hgj]
    dsimp only
    rw [Bool.and_eq_true, Bool.and_eq_true]
    refine ⟨⟨?_, ?_⟩, ?_⟩
    · rw [beq_iff_eq]
      exact hlen.symm
    · rw [List.all_eq_true]
      intro pos hpos
      rw [Bool.or_eq_true]
      cases hr : inRegion s.jumps pos with
      | true => left; rfl
      | false =>
          right
          rw [beq_iff_eq]
          exact hbytes pos (List.mem_range.mp hpos) hr
    · rw [List.all_eq_true]
      intro p hp
      rw [Bool.or_eq_true]
      right
      have hnd := (hWF s (List.get?_mem hgi)).1
      rw [hjumps, assocLookup_of_mem_nodup hnd hp]
      show specBlockEq blocks fuel p.2 p.2 = true
      cases fuel with
      | zero =>
          rw [specBlockEq]
          simp
      | succ fuel =>
          rw [specBlockEq]
          simp

/-- C4: on well-formed jump maps (the shape the engine always produces:
distinct, in-bounds, non-overlapping `pointer_size`-byte slots), block
equality as computed by `EngineBlock.__eq__` holds iff content lengths match
and every byte matches position-by-position except inside the placeholder
regions of the left block's jump map, where the linked blocks must instead
be recursively equal; consequently it is reflexive, insensitive to the bytes
stored inside placeholder regions, and sensitive to which blocks the jump
edges link to (block 0 equals the placeholder-byte variant 5 and the
same-link twin 3, but not block 4, which links elsewhere). -/
theorem c4_theorem :
    (∀ blocks : List EngineBlock, WFarena blocks → ∀ fuel i j : Nat,
        blockEq blocks fuel i j = specBlockEq blocks fuel i j) ∧
    (∀ (blocks : List EngineBlock) (fuel i : Nat),
        blockEq blocks fuel i i = true) ∧
    (∀ blocks : List EngineBlock, WFarena blocks →
      ∀ (fuel i j : Nat) (s o : EngineBlock),
        blocks.get? i = some s → blocks.get? j = some o →
        o.jumps = s.jumps → o.buff.length = s.buff.length →
        (∀ pos, pos < s.buff.length → inRegion s.jumps pos = false →
            s.buff.getD pos 0 = o.buff.getD pos 0) →
        blockEq blocks (fuel + 1) i j = true) ∧
    (blockEq blocksSens 2 0 5 = true ∧ blockEq blocksSens 2 0 3 = true ∧
      blockEq blocksSens 2 0 4 = false) :=
  ⟨blockEq_eq_spec, blockEq_refl, blockEq_placeholder_insensitive,
   by decide, by decide, by decide⟩

/-- Witness for C4: the equality characterisation and the placeholder-byte
insensitivity applied to the concrete arena `blocksSens`. -/
theorem c4_witness :
    blockEq blocksSens 2 0 3 = specBlockEq blocksSens 2 0 3 ∧
    blockEq blocksSens (2 + 1) 0 5 = true :=
  ⟨c4_theorem.1 blocksSens (by unfold WFarena WFblock WFjumps; decide) 2 0 3,
   c4_theorem.2.2.1 blocksSens (by unfold WFarena WFblock WFjumps; decide) 2 0 5
     ⟨[0, 0, 0, 0], [(0, 1)]⟩ ⟨[9, 9, 9, 9], [(0, 1)]⟩
     rfl rfl rfl rfl (by decide)⟩
